import Mathlib

/-!
Verification of the reconciliation deploy script `src/deploy.js` of
jamiekudla.com.  The script synchronizes a local `dist/` tree with an S3
bucket: it lists the bucket and walks the tree concurrently, hashes every
local file, skips files whose md5 matches the JSON-decoded remote etag,
uploads the rest, and finally deletes the remote objects that no local file
claimed.

The development shallowly embeds each component:
* `contentType`, `extname`, `basename` — the MIME lookup and its Node
  `path` helpers (deploy.js lines 19-42);
* `iterS3` — the paginated bucket listing (lines 45-70);
* `iterFS` / `walkList` — the recursive directory walk (lines 110-122);
* `decideFile`, `processFiles`, `reconcile`, `runTrace` — the per-file
  hash-compare-and-claim loop and delete phase of `main` (lines 125-193).

External primitives (the S3 client, the filesystem, the md5 digest) are
modelled as oracles: page-response lists, a directory tree, a byte-reading
function and a digest function.
-/

/-- A remote object as the bucket listing returns it: its `Key` and its
`ETag`.  The etag field may be absent from a listing record, hence the
`Option`.  Mirrors the `{Key, ETag}` fields `main` reads in deploy.js. -/
structure RemoteObj where
  Key : String
  ETag : Option String
deriving DecidableEq, Repr

/-- The JS object `s3Map` (deploy.js line 134), modelled as an association
list keyed by the remote key, kept in insertion order like a string-keyed
JS object. -/
abbrev S3Map := List (String × RemoteObj)

/-- Property read `s3Map[k]` (keys are unique by construction, so the
first matching entry is the entry). -/
def mapGet : S3Map → String → Option RemoteObj
  | [], _ => none
  | p :: t, k => if p.1 == k then some p.2 else mapGet t k

/-- Property write `s3Map[k] = v`: replace in place when the key exists,
append otherwise. -/
def mapSet (m : S3Map) (k : String) (v : RemoteObj) : S3Map :=
  if m.any (fun p => p.1 == k) then
    m.map (fun p => if p.1 == k then (k, v) else p)
  else
    m ++ [(k, v)]

/-- Property delete `delete s3Map[k]`. -/
def mapDelete (m : S3Map) (k : String) : S3Map :=
  m.filter (fun p => !(p.1 == k))

/-- The enumerable keys of `s3Map`, as `_.map(s3Map, function(a,b){return b})`
collects them (deploy.js line 168). -/
def mapKeys (m : S3Map) : List String := m.map (fun p => p.1)

/-- `s3Files.reduce(function(a,b){a[b.Key] = b; return a}, {})`
(deploy.js lines 134-137): build the key-indexed map, last write wins. -/
def s3MapOf (objs : List RemoteObj) : S3Map :=
  objs.foldl (fun a b => mapSet a b.Key b) []

/-- Characterization helper: the last listing record carrying a given key. -/
def lastWins (objs : List RemoteObj) (k : String) : Option RemoteObj :=
  objs.reverse.find? (fun o => o.Key == k)

/-- A character an etag body may contain without affecting the JSON string
syntax: anything but a quote or a backslash. -/
def plainChar (c : Char) : Bool := !(c == '"') && !(c == '\\')

/-- Model of `JSON.parse` as `main` applies it to a stored etag
(deploy.js line 147).  The storage provider's etags are JSON string
literals — a quoted token.  Such a literal (whose body contains no quote
and no escape) decodes to its body; on any other input `JSON.parse`
throws, modelled as `none`.  (Non-string JSON values never appear as
etags and are outside the model.) -/
def jsonParseChars : List Char → Option String
  | '"' :: rest =>
    if rest.getLast? == some '"' && rest.dropLast.all plainChar then
      some (String.mk rest.dropLast)
    else none
  | _ => none

def jsonParseEtag (s : String) : Option String :=
  jsonParseChars s.data

/-- `var distDir = "dist/"` (deploy.js line 12). -/
def distDir : String := "dist/"

/-- `var targetBucket = 'jamiekudla.com'` (deploy.js line 13). -/
def targetBucket : String := "jamiekudla.com"

/-- Wrap a token in quotes, the JSON-string encoding the provider uses for
etags. -/
def quoteStr (s : String) : String := "\"" ++ s ++ "\""

/-- A lowercase hexadecimal character. -/
def hexLowerChar (c : Char) : Bool :=
  ('0' ≤ c && c ≤ '9') || ('a' ≤ c && c ≤ 'f')

/-- Shape of `crypto.createHash('md5')...digest('hex')` output: exactly 32
lowercase hexadecimal characters. -/
def isHexDigest (s : String) : Bool :=
  s.data.length == 32 && s.data.all hexLowerChar

/-- Outcome of the body of `main`'s per-file callback (deploy.js lines
143-161) for one relative path: skip on hash match, upload otherwise, or a
thrown `JSON.parse` `SyntaxError`. -/
inductive Decision
  | dskip | dupload | dthrow
deriving DecidableEq, Repr

/-- The decision `main` takes for relative path `x` given the current
`s3Map` (deploy.js lines 143-161): decode the stored etag when the key and
its etag are present (a failing decode throws), md5 the local bytes, skip
exactly when the decoded etag equals the local hash. -/
def decideFile (md5hex : List Nat → String) (fsRead : String → List Nat)
    (m : S3Map) (x : String) : Decision :=
  let localhash := md5hex (fsRead (distDir ++ x))
  match mapGet m x with
  | none => .dupload
  | some r =>
    match r.ETag with
    | none => .dupload
    | some e =>
      match jsonParseEtag e with
      | none => .dthrow
      | some t => if t == localhash then .dskip else .dupload

/-- Progress log lines `main` emits (`Skipping`/`Uploading`/`Uploaded`/
`Removing`, deploy.js lines 152, 157, 159, 187). -/
inductive Event
  | skipE (x : String)
  | uploadingE (x : String)
  | uploadedE (x : String)
  | removingE (k : String)
deriving DecidableEq, Repr

/-- An event of the per-file decision phase, as opposed to the delete
phase. -/
def isDecisionEvent : Event → Bool
  | .skipE _ => true
  | .uploadingE _ => true
  | .uploadedE _ => true
  | .removingE _ => false

/-- The events one file's decision produces. -/
def evFor (d : Decision) (x : String) : List Event :=
  match d with
  | .dskip => [.skipE x]
  | .dupload => [.uploadingE x, .uploadedE x]
  | .dthrow => []

/-- State of the per-file phase: the shrinking `s3Map`, the lists of
skipped, uploaded and failed relative paths, and the log so far. -/
structure FoldSt where
  m : S3Map
  skipped : List String
  uploaded : List String
  failed : List String
  events : List Event
deriving Repr

/-- One file's hash-compare-and-claim step (deploy.js lines 143-162): a
skip or a successful upload removes the key from `s3Map`; a thrown decode
leaves the map untouched and marks the run failed. -/
def step (md5hex : List Nat → String) (fsRead : String → List Nat)
    (st : FoldSt) (x : String) : FoldSt :=
  match decideFile md5hex fsRead st.m x with
  | .dskip =>
    ⟨mapDelete st.m x, st.skipped ++ [x], st.uploaded, st.failed,
      st.events ++ [.skipE x]⟩
  | .dupload =>
    ⟨mapDelete st.m x, st.skipped, st.uploaded ++ [x], st.failed,
      st.events ++ [.uploadingE x, .uploadedE x]⟩
  | .dthrow =>
    ⟨st.m, st.skipped, st.uploaded, st.failed ++ [x], st.events⟩

/-- Initial state: the freshly built `s3Map`, nothing processed. -/
def initSt (remotes : List RemoteObj) : FoldSt :=
  ⟨s3MapOf remotes, [], [], [], []⟩

/-- The whole per-file phase of `main` (deploy.js lines 140-163) over the
local relative paths, with every issued put assumed to succeed.  The
single-threaded cooperative scheduler is modelled by processing the files
in order; only a file's own key is ever removed by its step, so with
distinct paths the outcome is interleaving-independent. -/
def processFiles (md5hex : List Nat → String) (remotes : List RemoteObj)
    (rels : List String) (fsRead : String → List Nat) : FoldSt :=
  rels.foldl (step md5hex fsRead) (initSt remotes)

/-- The reconciliation plan: which relative paths were skipped, which were
uploaded, and which remote keys remain to be deleted. -/
structure Plan where
  skipped : List String
  uploaded : List String
  toDelete : List String
deriving DecidableEq, Repr

/-- The outcome of `main`'s reconciliation: on success the plan, whose
delete set is whatever is left in `s3Map` (deploy.js lines 163-168); a
thrown etag decode rejects the whole run (`Except.error`) and no delete
phase happens. -/
def reconcile (md5hex : List Nat → String) (remotes : List RemoteObj)
    (rels : List String) (fsRead : String → List Nat) : Except Unit Plan :=
  let o := processFiles md5hex remotes rels fsRead
  if o.failed = [] then .ok ⟨o.skipped, o.uploaded, mapKeys o.m⟩
  else .error ()

/-- The observable log of one run: the per-file events, then — only when no
decode threw — one `Removing` line per leftover key (deploy.js lines
179-189; the delete phase is chained after the upload phase completes). -/
def runTrace (md5hex : List Nat → String) (remotes : List RemoteObj)
    (rels : List String) (fsRead : String → List Nat) : List Event :=
  let o := processFiles md5hex remotes rels fsRead
  o.events ++ (if o.failed = [] then (mapKeys o.m).map Event.removingE else [])

/-- The relative path of a walked local file:
`x.substring(distDir.length)` (deploy.js line 141). -/
def relPath (full : String) : String := full.drop (distDir.length)

deriving instance DecidableEq for Except

/-! Association-map lemmas. -/

theorem mapGet_mapDelete (m : S3Map) (k k2 : String) :
    mapGet (mapDelete m k) k2 = if k2 = k then none else mapGet m k2 := by
  induction m with
  | nil => simp [mapDelete, mapGet]
  | cons p t ih =>
    by_cases hpk : p.1 = k
    · have h1 : mapDelete (p :: t) k = mapDelete t k := by
        simp [mapDelete, List.filter_cons, hpk]
      rw [h1, ih]
      by_cases hk2 : k2 = k
      · simp [hk2]
      · have hp2 : ¬ p.1 = k2 := by rw [hpk]; exact fun h => hk2 h.symm
        simp [hk2, mapGet, hp2]
    · have h1 : mapDelete (p :: t) k = p :: mapDelete t k := by
        simp [mapDelete, List.filter_cons, hpk]
      rw [h1]
      by_cases hp2 : p.1 = k2
      · have hk2 : ¬ k2 = k := fun h => hpk (by rw [hp2, h])
        simp [mapGet, hp2, hk2]
      · simp [mapGet, hp2, ih]

theorem mapGet_cons (p : String × RemoteObj) (t : S3Map) (k : String) :
    mapGet (p :: t) k = if p.1 = k then some p.2 else mapGet t k := by
  by_cases h : p.1 = k
  · have hb : (p.1 == k) = true := by simp [h]
    simp [mapGet, hb, h]
  · have hb : (p.1 == k) = false := beq_eq_false_iff_ne.mpr h
    simp [mapGet, hb, h]

theorem mapKeys_cons (p : String × RemoteObj) (t : S3Map) :
    mapKeys (p :: t) = p.1 :: mapKeys t := rfl

theorem mapGet_mapReplace (m : S3Map) (k : String) (v : RemoteObj) (k2 : String) :
    mapGet (m.map (fun p => if p.1 == k then (k, v) else p)) k2
      = if k2 = k then (if m.any (fun p => p.1 == k) then some v else none)
        else mapGet m k2 := by
  induction m with
  | nil => simp [mapGet]
  | cons q t ih =>
    simp only [List.map_cons, List.any_cons, Bool.or_eq_true, beq_iff_eq] at ih ⊢
    by_cases hq : q.1 = k <;> by_cases hk2 : k2 = k
    · simp [mapGet_cons, hq, hk2]
    · have hkk2 : ¬ k = k2 := fun h => hk2 h.symm
      have hq2 : ¬ q.1 = k2 := by rw [hq]; exact hkk2
      simp [mapGet_cons, hq, hk2, hkk2, hq2, ih]
    · subst hk2
      rw [if_neg hq, mapGet_cons, if_neg hq, ih]
      rw [if_pos rfl, if_congr (or_iff_right hq) rfl rfl, if_pos rfl]
    · simp [mapGet_cons, hq, hk2, ih]

theorem mapGet_append_pair (m : S3Map) (k : String) (v : RemoteObj)
    (k2 : String) (h : ∀ p ∈ m, ¬ p.1 = k) :
    mapGet (m ++ [(k, v)]) k2 = if k2 = k then some v else mapGet m k2 := by
  induction m with
  | nil =>
    by_cases hk2 : k2 = k
    · subst hk2; simp [mapGet]
    · have hb : (k == k2) = false := beq_eq_false_iff_ne.mpr (fun hh => hk2 hh.symm)
      simp [mapGet, hb, hk2]
  | cons q t ih =>
    have hq := h q (by simp)
    by_cases hq2 : q.1 = k2
    · have hk2 : ¬ k2 = k := fun hh => hq (by rw [hq2, hh])
      have hbq2 : (q.1 == k2) = true := by simp [hq2]
      simp [mapGet, hbq2, hk2]
    · have hbq2 : (q.1 == k2) = false := beq_eq_false_iff_ne.mpr hq2
      simp [mapGet, hbq2, ih (fun p hp => h p (by simp [hp]))]

theorem mapGet_mapSet (m : S3Map) (k : String) (v : RemoteObj) (k2 : String) :
    mapGet (mapSet m k v) k2 = if k2 = k then some v else mapGet m k2 := by
  by_cases hany : m.any (fun p => p.1 == k) = true
  · have hm : mapSet m k v = m.map (fun p => if p.1 == k then (k, v) else p) := by
      simp [mapSet, hany]
    rw [hm, mapGet_mapReplace, hany]
    simp
  · have hm : mapSet m k v = m ++ [(k, v)] := by
      simp [mapSet, hany]
    rw [hm]
    apply mapGet_append_pair
    intro p hp hpk
    exact hany (List.any_eq_true.mpr ⟨p, hp, by simp [hpk]⟩)

theorem foldl_mapSet_get (objs : List RemoteObj) :
    ∀ (m : S3Map) (k : String),
      mapGet (objs.foldl (fun a b => mapSet a b.Key b) m) k
        = match objs.reverse.find? (fun o => o.Key == k) with
          | some o => some o
          | none => mapGet m k := by
  induction objs with
  | nil => intro m k; simp
  | cons b t ih =>
    intro m k
    simp only [List.foldl_cons, List.reverse_cons]
    rw [ih, List.find?_append]
    cases h : t.reverse.find? (fun o => o.Key == k) with
    | some o => simp [Option.orElse]
    | none =>
      by_cases hbk : b.Key = k
      · have hb : (b.Key == k) = true := by simp [hbk]
        simp [Option.orElse, List.find?, hb, mapGet_mapSet, hbk]
      · have hb : (b.Key == k) = false := beq_eq_false_iff_ne.mpr hbk
        have hkb : ¬ k = b.Key := fun h2 => hbk h2.symm
        simp only [Option.orElse, List.find?, hb, mapGet_mapSet]
        simp [hkb]

theorem s3MapOf_get (objs : List RemoteObj) (k : String) :
    mapGet (s3MapOf objs) k = lastWins objs k := by
  rw [s3MapOf, foldl_mapSet_get, lastWins]
  cases h : objs.reverse.find? (fun o => o.Key == k) <;> simp [mapGet]

theorem s3MapOf_get_key {objs : List RemoteObj} {k : String} {r : RemoteObj}
    (h : mapGet (s3MapOf objs) k = some r) : r.Key = k ∧ r ∈ objs := by
  rw [s3MapOf_get, lastWins] at h
  refine ⟨by simpa using List.find?_some h, ?_⟩
  have := List.mem_of_find?_eq_some h
  simpa using this

theorem s3MapOf_isSome_of_mem {objs : List RemoteObj} {r : RemoteObj}
    (h : r ∈ objs) : (mapGet (s3MapOf objs) r.Key).isSome := by
  rw [s3MapOf_get, lastWins, List.find?_isSome]
  exact ⟨r, by simpa using h, by simp⟩

theorem mapGet_none_iff (m : S3Map) (k : String) :
    mapGet m k = none ↔ k ∉ mapKeys m := by
  induction m with
  | nil => simp [mapGet, mapKeys]
  | cons p t ih =>
    rw [mapGet_cons, mapKeys_cons]
    by_cases hp : p.1 = k
    · simp [hp]
    · have hkp : ¬ k = p.1 := fun h => hp h.symm
      simp [hp, ih, List.mem_cons, hkp]

theorem eq_nil_of_mapGet_none (m : S3Map)
    (h : ∀ k, mapGet m k = none) : m = [] := by
  cases m with
  | nil => rfl
  | cons p t => simpa [mapGet] using h p.1

/-! Characterization of the per-file decision. -/

theorem decideFile_congr (md5hex : List Nat → String) (fsRead : String → List Nat)
    {m m2 : S3Map} (x : String) (h : mapGet m x = mapGet m2 x) :
    decideFile md5hex fsRead m x = decideFile md5hex fsRead m2 x := by
  unfold decideFile
  rw [h]

theorem decideFile_eq_dskip_iff (md5hex : List Nat → String)
    (fsRead : String → List Nat) (m : S3Map) (x : String) :
    decideFile md5hex fsRead m x = Decision.dskip ↔
      ∃ r, mapGet m x = some r ∧ ∃ e, r.ETag = some e ∧
        jsonParseEtag e = some (md5hex (fsRead (distDir ++ x))) := by
  cases hm : mapGet m x with
  | none => simp [decideFile, hm]
  | some r =>
    cases he : r.ETag with
    | none => simp [decideFile, hm, he]
    | some e =>
      cases hp : jsonParseEtag e with
      | none => simp [decideFile, hm, he, hp]
      | some t =>
        by_cases ht : t = md5hex (fsRead (distDir ++ x)) <;>
          simp [decideFile, hm, he, hp, ht]

theorem decideFile_eq_dthrow_iff (md5hex : List Nat → String)
    (fsRead : String → List Nat) (m : S3Map) (x : String) :
    decideFile md5hex fsRead m x = Decision.dthrow ↔
      ∃ r, mapGet m x = some r ∧ ∃ e, r.ETag = some e ∧
        jsonParseEtag e = none := by
  cases hm : mapGet m x with
  | none => simp [decideFile, hm]
  | some r =>
    cases he : r.ETag with
    | none => simp [decideFile, hm, he]
    | some e =>
      cases hp : jsonParseEtag e with
      | none => simp [decideFile, hm, he, hp]
      | some t =>
        by_cases ht : t = md5hex (fsRead (distDir ++ x)) <;>
          simp [decideFile, hm, he, hp, ht]

theorem decision_not_skip_not_throw {d : Decision}
    (h1 : d ≠ Decision.dskip) (h2 : d ≠ Decision.dthrow) : d = Decision.dupload := by
  cases d <;> simp_all

/-! Characterization of the per-file phase as a whole. -/

theorem step_m_get (md5hex : List Nat → String) (fsRead : String → List Nat)
    (st : FoldSt) (x k : String) :
    mapGet (step md5hex fsRead st x).m k
      = if k = x ∧ decideFile md5hex fsRead st.m x ≠ Decision.dthrow then none
        else mapGet st.m k := by
  cases h : decideFile md5hex fsRead st.m x <;>
    simp [step, h, mapGet_mapDelete]

theorem step_skipped (md5hex : List Nat → String) (fsRead : String → List Nat)
    (st : FoldSt) (x : String) :
    (step md5hex fsRead st x).skipped
      = st.skipped
        ++ (if decideFile md5hex fsRead st.m x = Decision.dskip then [x] else []) := by
  cases h : decideFile md5hex fsRead st.m x <;> simp [step, h]

theorem step_uploaded (md5hex : List Nat → String) (fsRead : String → List Nat)
    (st : FoldSt) (x : String) :
    (step md5hex fsRead st x).uploaded
      = st.uploaded
        ++ (if decideFile md5hex fsRead st.m x = Decision.dupload then [x] else []) := by
  cases h : decideFile md5hex fsRead st.m x <;> simp [step, h]

theorem step_failed (md5hex : List Nat → String) (fsRead : String → List Nat)
    (st : FoldSt) (x : String) :
    (step md5hex fsRead st x).failed
      = st.failed
        ++ (if decideFile md5hex fsRead st.m x = Decision.dthrow then [x] else []) := by
  cases h : decideFile md5hex fsRead st.m x <;> simp [step, h]

theorem step_events (md5hex : List Nat → String) (fsRead : String → List Nat)
    (st : FoldSt) (x : String) :
    (step md5hex fsRead st x).events
      = st.events ++ evFor (decideFile md5hex fsRead st.m x) x := by
  cases h : decideFile md5hex fsRead st.m x <;> simp [step, h, evFor]

theorem foldl_char (md5hex : List Nat → String) (fsRead : String → List Nat)
    (m0 : S3Map) :
    ∀ (l : List String) (st : FoldSt), l.Nodup →
      (∀ x ∈ l, mapGet st.m x = mapGet m0 x) →
      ((l.foldl (step md5hex fsRead) st).skipped
          = st.skipped
            ++ l.filter (fun x => decideFile md5hex fsRead m0 x == Decision.dskip))
      ∧ ((l.foldl (step md5hex fsRead) st).uploaded
          = st.uploaded
            ++ l.filter (fun x => decideFile md5hex fsRead m0 x == Decision.dupload))
      ∧ ((l.foldl (step md5hex fsRead) st).failed
          = st.failed
            ++ l.filter (fun x => decideFile md5hex fsRead m0 x == Decision.dthrow))
      ∧ ((l.foldl (step md5hex fsRead) st).events
          = st.events
            ++ l.flatMap (fun x => evFor (decideFile md5hex fsRead m0 x) x))
      ∧ ∀ k, mapGet (l.foldl (step md5hex fsRead) st).m k
          = if k ∈ l ∧ decideFile md5hex fsRead m0 k ≠ Decision.dthrow then none
            else mapGet st.m k := by
  intro l
  induction l with
  | nil => intro st _ _; simp
  | cons x t ih =>
    intro st hnd hst
    have hxt : x ∉ t := (List.nodup_cons.mp hnd).1
    have hndt : t.Nodup := (List.nodup_cons.mp hnd).2
    have hgx : mapGet st.m x = mapGet m0 x := hst x (by simp)
    have hdx : decideFile md5hex fsRead st.m x = decideFile md5hex fsRead m0 x :=
      decideFile_congr _ _ _ hgx
    have hst2 : ∀ y ∈ t, mapGet (step md5hex fsRead st x).m y = mapGet m0 y := by
      intro y hy
      rw [step_m_get]
      have hyx : ¬ y = x := fun h => hxt (h ▸ hy)
      simp only [hyx, false_and, if_false]
      exact hst y (by simp [hy])
    obtain ⟨h1, h2, h3, h4, h5⟩ := ih (step md5hex fsRead st x) hndt hst2
    refine ⟨?_, ?_, ?_, ?_, ?_⟩
    · show (t.foldl (step md5hex fsRead) (step md5hex fsRead st x)).skipped = _
      rw [h1, step_skipped, hdx, List.filter_cons]
      cases hd : decideFile md5hex fsRead m0 x <;> simp [hd]
    · show (t.foldl (step md5hex fsRead) (step md5hex fsRead st x)).uploaded = _
      rw [h2, step_uploaded, hdx, List.filter_cons]
      cases hd : decideFile md5hex fsRead m0 x <;> simp [hd]
    · show (t.foldl (step md5hex fsRead) (step md5hex fsRead st x)).failed = _
      rw [h3, step_failed, hdx, List.filter_cons]
      cases hd : decideFile md5hex fsRead m0 x <;> simp [hd]
    · show (t.foldl (step md5hex fsRead) (step md5hex fsRead st x)).events = _
      rw [h4, step_events, hdx, List.flatMap_cons, List.append_assoc]
    · intro k
      show mapGet (t.foldl (step md5hex fsRead) (step md5hex fsRead st x)).m k = _
      rw [h5 k, step_m_get, hdx]
      by_cases hkt : k ∈ t
      · have hkx : ¬ k = x := fun h => hxt (h ▸ hkt)
        by_cases hdk : decideFile md5hex fsRead m0 k = Decision.dthrow
        · simp [hkt, hkx, hdk]
        · simp [hkt, hdk]
      · by_cases hkx : k = x
        · subst hkx
          by_cases hdk : decideFile md5hex fsRead m0 k = Decision.dthrow
          · simp [hkt, hdk]
          · simp [hkt, hdk]
        · simp [hkt, hkx]

theorem processFiles_skipped (md5hex : List Nat → String) (remotes : List RemoteObj)
    (rels : List String) (fsRead : String → List Nat) (hnd : rels.Nodup) :
    (processFiles md5hex remotes rels fsRead).skipped
      = rels.filter
          (fun x => decideFile md5hex fsRead (s3MapOf remotes) x == Decision.dskip) := by
  have h := (foldl_char md5hex fsRead (s3MapOf remotes) rels (initSt remotes) hnd
    (fun _ _ => rfl)).1
  simpa [processFiles, initSt] using h

theorem processFiles_uploaded (md5hex : List Nat → String) (remotes : List RemoteObj)
    (rels : List String) (fsRead : String → List Nat) (hnd : rels.Nodup) :
    (processFiles md5hex remotes rels fsRead).uploaded
      = rels.filter
          (fun x => decideFile md5hex fsRead (s3MapOf remotes) x == Decision.dupload) := by
  have h := (foldl_char md5hex fsRead (s3MapOf remotes) rels (initSt remotes) hnd
    (fun _ _ => rfl)).2.1
  simpa [processFiles, initSt] using h

theorem processFiles_failed (md5hex : List Nat → String) (remotes : List RemoteObj)
    (rels : List String) (fsRead : String → List Nat) (hnd : rels.Nodup) :
    (processFiles md5hex remotes rels fsRead).failed
      = rels.filter
          (fun x => decideFile md5hex fsRead (s3MapOf remotes) x == Decision.dthrow) := by
  have h := (foldl_char md5hex fsRead (s3MapOf remotes) rels (initSt remotes) hnd
    (fun _ _ => rfl)).2.2.1
  simpa [processFiles, initSt] using h

theorem processFiles_events (md5hex : List Nat → String) (remotes : List RemoteObj)
    (rels : List String) (fsRead : String → List Nat) (hnd : rels.Nodup) :
    (processFiles md5hex remotes rels fsRead).events
      = rels.flatMap
          (fun x => evFor (decideFile md5hex fsRead (s3MapOf remotes) x) x) := by
  have h := (foldl_char md5hex fsRead (s3MapOf remotes) rels (initSt remotes) hnd
    (fun _ _ => rfl)).2.2.2.1
  simpa [processFiles, initSt] using h

theorem processFiles_m_get (md5hex : List Nat → String) (remotes : List RemoteObj)
    (rels : List String) (fsRead : String → List Nat) (hnd : rels.Nodup)
    (k : String) :
    mapGet (processFiles md5hex remotes rels fsRead).m k
      = if k ∈ rels ∧ decideFile md5hex fsRead (s3MapOf remotes) k ≠ Decision.dthrow
        then none else mapGet (s3MapOf remotes) k := by
  have h := (foldl_char md5hex fsRead (s3MapOf remotes) rels (initSt remotes) hnd
    (fun _ _ => rfl)).2.2.2.2 k
  simpa [processFiles, initSt] using h

/-! Facts about the trace and about quoted digests. -/

theorem runTrace_eq (md5hex : List Nat → String) (remotes : List RemoteObj)
    (rels : List String) (fsRead : String → List Nat) :
    runTrace md5hex remotes rels fsRead
      = (processFiles md5hex remotes rels fsRead).events
        ++ (if (processFiles md5hex remotes rels fsRead).failed = []
            then (mapKeys (processFiles md5hex remotes rels fsRead).m).map
                   Event.removingE
            else []) := rfl

theorem uploadingE_mem_evFor {d : Decision} {y x : String} :
    Event.uploadingE x ∈ evFor d y ↔ x = y ∧ d = Decision.dupload := by
  cases d <;> simp [evFor]

theorem removingE_not_mem_evFor (d : Decision) (y k : String) :
    Event.removingE k ∉ evFor d y := by
  cases d <;> simp [evFor]

theorem string_mk_data (s : String) : String.mk s.data = s := by
  cases s
  rfl

theorem hexLowerChar_plain {c : Char} (h : hexLowerChar c = true) :
    plainChar c = true := by
  have h1 : ¬ c = '"' := by rintro rfl; exact absurd h (by decide)
  have h2 : ¬ c = '\\' := by rintro rfl; exact absurd h (by decide)
  simp [plainChar, h1, h2]

theorem jsonParseEtag_quote (s : String) (hs : isHexDigest s = true) :
    jsonParseEtag (quoteStr s) = some s := by
  have hdata : (quoteStr s).data = '"' :: (s.data ++ ['"']) := by
    simp [quoteStr]
  rw [jsonParseEtag, hdata]
  have hall : (s.data).all plainChar = true := by
    simp only [isHexDigest, Bool.and_eq_true] at hs
    exact List.all_eq_true.mpr
      (fun c hc => hexLowerChar_plain (List.all_eq_true.mp hs.2 c hc))
  simp [jsonParseChars, hall, string_mk_data]

/-! Concrete instances used to exercise the theorems. -/

/-- A fixed 32-character lowercase-hex digest value. -/
def hashA : String := "aaaabbbbccccddddeeeeffff00001111"

/-- A second, different digest value. -/
def hashB : String := "ffffffffffffffffffffffffffffffff"

/-- A digest oracle that hashes every byte string to `hashA`. -/
def md5A : List Nat → String := fun _ => hashA

/-- A read oracle returning empty byte strings. -/
def readZ : String → List Nat := fun _ => []

/-- C1: a local file whose md5 equals the JSON-decoded etag of the remote
object stored under the same relative path is skipped: no `Uploading` line
is emitted for it, its key is removed from the remote map, and no
`Removing` line for that key ever appears in the run's trace. -/
theorem c1_matching_hash_skipped (md5hex : List Nat → String)
    (fsRead : String → List Nat) (remotes : List RemoteObj) (rels : List String)
    (x : String) (r : RemoteObj) (e : String)
    (hnd : rels.Nodup) (hx : x ∈ rels)
    (hr : mapGet (s3MapOf remotes) x = some r)
    (he : r.ETag = some e)
    (hp : jsonParseEtag e = some (md5hex (fsRead (distDir ++ x)))) :
    x ∈ (processFiles md5hex remotes rels fsRead).skipped
    ∧ Event.uploadingE x ∉ runTrace md5hex remotes rels fsRead
    ∧ mapGet (processFiles md5hex remotes rels fsRead).m x = none
    ∧ Event.removingE x ∉ runTrace md5hex remotes rels fsRead := by
  have hd : decideFile md5hex fsRead (s3MapOf remotes) x = Decision.dskip :=
    (decideFile_eq_dskip_iff _ _ _ _).mpr ⟨r, hr, e, he, hp⟩
  have hmap : mapGet (processFiles md5hex remotes rels fsRead).m x = none := by
    rw [processFiles_m_get _ _ _ _ hnd]
    simp [hx, hd]
  refine ⟨?_, ?_, hmap, ?_⟩
  · rw [processFiles_skipped _ _ _ _ hnd]
    exact List.mem_filter.mpr ⟨hx, by simp [hd]⟩
  · rw [runTrace_eq]
    intro hmem
    rcases List.mem_append.mp hmem with h1 | h2
    · rw [processFiles_events _ _ _ _ hnd] at h1
      obtain ⟨y, hy, hyev⟩ := List.mem_flatMap.mp h1
      obtain ⟨hxy, hdy⟩ := uploadingE_mem_evFor.mp hyev
      rw [← hxy] at hdy
      rw [hd] at hdy
      exact absurd hdy (by simp)
    · by_cases hif : (processFiles md5hex remotes rels fsRead).failed = [] <;>
        simp [hif] at h2
  · rw [runTrace_eq]
    intro hmem
    rcases List.mem_append.mp hmem with h1 | h2
    · rw [processFiles_events _ _ _ _ hnd] at h1
      obtain ⟨y, hy, hyev⟩ := List.mem_flatMap.mp h1
      exact removingE_not_mem_evFor _ _ _ hyev
    · by_cases hif : (processFiles md5hex remotes rels fsRead).failed = []
      · simp only [hif, if_true] at h2
        obtain ⟨k, hk, hkev⟩ := List.mem_map.mp h2
        have hkx : k = x := by simpa using hkev
        rw [hkx] at hk
        exact absurd ((mapGet_none_iff _ _).mp hmap) (fun hni => hni hk)
      · simp [hif] at h2

/-- C1 witness: a concrete run in which the single local file `a.html`
hashes to the decoded remote etag, hence is skipped and never removed. -/
theorem c1_witness :
    List.Nodup ["a.html"]
    ∧ "a.html" ∈ ["a.html"]
    ∧ mapGet (s3MapOf [⟨"a.html", some (quoteStr hashA)⟩]) "a.html"
        = some ⟨"a.html", some (quoteStr hashA)⟩
    ∧ jsonParseEtag (quoteStr hashA) = some (md5A (readZ (distDir ++ "a.html")))
    ∧ "a.html" ∈ (processFiles md5A [⟨"a.html", some (quoteStr hashA)⟩]
        ["a.html"] readZ).skipped :=
  ⟨by decide, by decide, by decide, by decide,
    (c1_matching_hash_skipped md5A readZ [⟨"a.html", some (quoteStr hashA)⟩]
      ["a.html"] "a.html" ⟨"a.html", some (quoteStr hashA)⟩ (quoteStr hashA)
      (by decide) (by decide) (by decide) (by decide) (by decide)).1⟩

/-- C10: a local file whose remote record exists but carries no etag is
uploaded: the absent etag never decodes, never compares equal, and raises
no error — the file lands in `uploaded`, not in `skipped` or `failed`. -/
theorem c10_absent_etag_uploads (md5hex : List Nat → String)
    (fsRead : String → List Nat) (remotes : List RemoteObj) (rels : List String)
    (x : String) (r : RemoteObj)
    (hnd : rels.Nodup) (hx : x ∈ rels)
    (hr : mapGet (s3MapOf remotes) x = some r)
    (he : r.ETag = none) :
    x ∈ (processFiles md5hex remotes rels fsRead).uploaded
    ∧ x ∉ (processFiles md5hex remotes rels fsRead).skipped
    ∧ x ∉ (processFiles md5hex remotes rels fsRead).failed := by
  have hd : decideFile md5hex fsRead (s3MapOf remotes) x = Decision.dupload := by
    simp [decideFile, hr, he]
  refine ⟨?_, ?_, ?_⟩
  · rw [processFiles_uploaded _ _ _ _ hnd]
    exact List.mem_filter.mpr ⟨hx, by simp [hd]⟩
  · rw [processFiles_skipped _ _ _ _ hnd]
    intro hmem
    have := (List.mem_filter.mp hmem).2
    simp [hd] at this
  · rw [processFiles_failed _ _ _ _ hnd]
    intro hmem
    have := (List.mem_filter.mp hmem).2
    simp [hd] at this

/-- C10 witness: a concrete run in which the remote record for `a.html`
has no etag and the file is uploaded. -/
theorem c10_witness :
    List.Nodup ["a.html"]
    ∧ "a.html" ∈ ["a.html"]
    ∧ mapGet (s3MapOf [⟨"a.html", none⟩]) "a.html" = some ⟨"a.html", none⟩
    ∧ "a.html" ∈ (processFiles md5A [⟨"a.html", none⟩] ["a.html"] readZ).uploaded :=
  ⟨by decide, by decide, by decide,
    (c10_absent_etag_uploads md5A readZ [⟨"a.html", none⟩] ["a.html"]
      "a.html" ⟨"a.html", none⟩ (by decide) (by decide) (by decide) rfl).1⟩

/-- C5: over the provider's etag format (a JSON string literal, wrapped in
quotes), a remote object whose decoded etag token is not a 32-character
lowercase-hex md5 digest — e.g. a multipart-style token — forces an upload
of its local counterpart whatever the local bytes are, and the run is not
aborted: `reconcile` still succeeds. -/
theorem c5_unparsable_hash_uploads (md5hex : List Nat → String)
    (fsRead : String → List Nat) (remotes : List RemoteObj) (rels : List String)
    (x : String) (r : RemoteObj) (e t : String)
    (hmd5 : ∀ b, isHexDigest (md5hex b) = true)
    (hnd : rels.Nodup)
    (hall : ∀ rr ∈ remotes, ∀ ee, rr.ETag = some ee → (jsonParseEtag ee).isSome)
    (hx : x ∈ rels)
    (hr : mapGet (s3MapOf remotes) x = some r)
    (he : r.ETag = some e)
    (ht : jsonParseEtag e = some t)
    (hbad : isHexDigest t = false) :
    ∃ plan, reconcile md5hex remotes rels fsRead = .ok plan
      ∧ x ∈ plan.uploaded ∧ x ∉ plan.skipped := by
  have hnothrow : ∀ y ∈ rels,
      decideFile md5hex fsRead (s3MapOf remotes) y ≠ Decision.dthrow := by
    intro y _ hthrow
    obtain ⟨rr, hrr, ee, hee, hpe⟩ := (decideFile_eq_dthrow_iff _ _ _ _).mp hthrow
    have hmem : rr ∈ remotes := (s3MapOf_get_key hrr).2
    have hsome := hall rr hmem ee hee
    simp [hpe] at hsome
  have hfail : (processFiles md5hex remotes rels fsRead).failed = [] := by
    rw [processFiles_failed _ _ _ _ hnd]
    apply List.filter_eq_nil_iff.mpr
    intro y hy
    simp [hnothrow y hy]
  have hd : decideFile md5hex fsRead (s3MapOf remotes) x = Decision.dupload := by
    have hne : ¬ t = md5hex (fsRead (distDir ++ x)) := by
      intro hteq
      rw [hteq, hmd5] at hbad
      exact absurd hbad (by simp)
    simp [decideFile, hr, he, ht, hne]
  refine ⟨⟨(processFiles md5hex remotes rels fsRead).skipped,
      (processFiles md5hex remotes rels fsRead).uploaded,
      mapKeys (processFiles md5hex remotes rels fsRead).m⟩,
    by simp [reconcile, hfail], ?_, ?_⟩
  · show x ∈ (processFiles md5hex remotes rels fsRead).uploaded
    rw [processFiles_uploaded _ _ _ _ hnd]
    exact List.mem_filter.mpr ⟨hx, by simp [hd]⟩
  · show x ∉ (processFiles md5hex remotes rels fsRead).skipped
    rw [processFiles_skipped _ _ _ _ hnd]
    intro hmem
    have := (List.mem_filter.mp hmem).2
    simp [hd] at this

/-- C5 witness: a concrete run with a multipart-style etag token
`"abc-2"` for `x.js`, which is uploaded and the run succeeds. -/
theorem c5_witness :
    isHexDigest (md5A []) = true
    ∧ List.Nodup ["x.js"]
    ∧ jsonParseEtag "\"abc-2\"" = some "abc-2"
    ∧ isHexDigest "abc-2" = false
    ∧ ∃ plan, reconcile md5A [⟨"x.js", some "\"abc-2\""⟩] ["x.js"] readZ = .ok plan
        ∧ "x.js" ∈ plan.uploaded ∧ "x.js" ∉ plan.skipped :=
  ⟨by decide, by decide, by decide, by decide,
    c5_unparsable_hash_uploads md5A readZ [⟨"x.js", some "\"abc-2\""⟩] ["x.js"]
      "x.js" ⟨"x.js", some "\"abc-2\""⟩ "\"abc-2\"" "abc-2"
      (fun _ => (by decide : isHexDigest hashA = true)) (by decide)
      (by intro rr hrr ee hee
          simp at hrr
          rw [hrr] at hee
          simp at hee
          rw [← hee]
          decide)
      (by decide) (by decide) rfl (by decide) (by decide)⟩

/-- C2: on a successful run, every remote object whose key no local
relative path matches ends in the delete set and a `Removing` line for it
appears in the trace; and a key that was skipped or uploaded is never in
the delete set. -/
theorem c2_unmatched_deleted (md5hex : List Nat → String)
    (fsRead : String → List Nat) (remotes : List RemoteObj) (rels : List String)
    (plan : Plan) (hnd : rels.Nodup)
    (hok : reconcile md5hex remotes rels fsRead = .ok plan) :
    (∀ r ∈ remotes, r.Key ∉ rels →
        r.Key ∈ plan.toDelete
        ∧ Event.removingE r.Key ∈ runTrace md5hex remotes rels fsRead)
    ∧ (∀ k, k ∈ plan.skipped ∨ k ∈ plan.uploaded → k ∉ plan.toDelete) := by
  by_cases hfail : (processFiles md5hex remotes rels fsRead).failed = []
  case neg => simp [reconcile, hfail] at hok
  have hplan : plan = ⟨(processFiles md5hex remotes rels fsRead).skipped,
      (processFiles md5hex remotes rels fsRead).uploaded,
      mapKeys (processFiles md5hex remotes rels fsRead).m⟩ := by
    simp [reconcile, hfail] at hok
    exact hok.symm
  subst hplan
  constructor
  · intro r hr hnl
    have hget : mapGet (processFiles md5hex remotes rels fsRead).m r.Key
        = mapGet (s3MapOf remotes) r.Key := by
      rw [processFiles_m_get _ _ _ _ hnd]
      simp [hnl]
    have hsome : (mapGet (processFiles md5hex remotes rels fsRead).m r.Key).isSome := by
      rw [hget]
      exact s3MapOf_isSome_of_mem hr
    have hkeys : r.Key ∈ mapKeys (processFiles md5hex remotes rels fsRead).m := by
      by_contra hni
      rw [← mapGet_none_iff] at hni
      rw [hni] at hsome
      simp at hsome
    refine ⟨hkeys, ?_⟩
    rw [runTrace_eq]
    apply List.mem_append.mpr
    right
    simp only [hfail, if_true]
    exact List.mem_map.mpr ⟨r.Key, hkeys, rfl⟩
  · intro k hk
    have hdec : k ∈ rels
        ∧ decideFile md5hex fsRead (s3MapOf remotes) k ≠ Decision.dthrow := by
      rcases hk with h | h
      · rw [processFiles_skipped _ _ _ _ hnd] at h
        obtain ⟨h1, h2⟩ := List.mem_filter.mp h
        refine ⟨h1, ?_⟩
        intro hth
        rw [hth] at h2
        simp at h2
      · rw [processFiles_uploaded _ _ _ _ hnd] at h
        obtain ⟨h1, h2⟩ := List.mem_filter.mp h
        refine ⟨h1, ?_⟩
        intro hth
        rw [hth] at h2
        simp at h2
    have hnone : mapGet (processFiles md5hex remotes rels fsRead).m k = none := by
      rw [processFiles_m_get _ _ _ _ hnd]
      simp [hdec.1, hdec.2]
    exact (mapGet_none_iff _ _).mp hnone

/-- C2 witness: a concrete successful run where remote `old.css` has no
local counterpart: it lands in the delete set and a `Removing` line is
traced, while the uploaded key `new.html` is not deleted. -/
theorem c2_witness :
    List.Nodup ["new.html"]
    ∧ reconcile md5A [⟨"old.css", some "\"dead\""⟩] ["new.html"] readZ
        = .ok ⟨[], ["new.html"], ["old.css"]⟩
    ∧ "old.css" ∈ (Plan.mk [] ["new.html"] ["old.css"]).toDelete
    ∧ Event.removingE "old.css"
        ∈ runTrace md5A [⟨"old.css", some "\"dead\""⟩] ["new.html"] readZ :=
  ⟨by decide, by decide,
    ((c2_unmatched_deleted md5A readZ [⟨"old.css", some "\"dead\""⟩] ["new.html"]
        ⟨[], ["new.html"], ["old.css"]⟩ (by decide) (by decide)).1
      ⟨"old.css", some "\"dead\""⟩ (by decide) (by decide)).1,
    ((c2_unmatched_deleted md5A readZ [⟨"old.css", some "\"dead\""⟩] ["new.html"]
        ⟨[], ["new.html"], ["old.css"]⟩ (by decide) (by decide)).1
      ⟨"old.css", some "\"dead\""⟩ (by decide) (by decide)).2⟩

/-- On a successful run no relative path's decision was a throw. -/
theorem nothrow_of_failed_nil (md5hex : List Nat → String)
    (fsRead : String → List Nat) (remotes : List RemoteObj) (rels : List String)
    (hnd : rels.Nodup)
    (hfail : (processFiles md5hex remotes rels fsRead).failed = []) :
    ∀ y ∈ rels,
      decideFile md5hex fsRead (s3MapOf remotes) y ≠ Decision.dthrow := by
  rw [processFiles_failed _ _ _ _ hnd] at hfail
  intro y hy
  have := List.filter_eq_nil_iff.mp hfail y hy
  simpa using this

/-- C4 counterexample: a run with one remote object `a.html` whose etag
differs from the local hash.  The remote key `a.html` is overwritten
(uploaded), so it ends in neither `unchanged` (skipped) nor `toDelete`,
contradicting the claimed two-way split for remote keys. -/
theorem c4_counterexample :
    reconcile md5A [⟨"a.html", some (quoteStr hashB)⟩] ["a.html"] readZ
      = .ok ⟨[], ["a.html"], []⟩
    ∧ "a.html" ∈ mapKeys (s3MapOf [⟨"a.html", some (quoteStr hashB)⟩])
    ∧ ¬ ("a.html" ∈ (Plan.mk [] ["a.html"] []).skipped
          ∨ "a.html" ∈ (Plan.mk [] ["a.html"] []).toDelete) := by
  refine ⟨by decide, by decide, ?_⟩
  intro h
  rcases h with h | h <;> simp [Plan.skipped, Plan.toDelete] at h

/-- C4 (amended): on a successful run the plan is a three-way partition:
every remote key ends in exactly one of `toUpload` (uploaded), `unchanged`
(skipped) or `toDelete`; every local key ends in exactly one of `toUpload`
or `unchanged` and never in `toDelete`. -/
theorem c4_amended_partition (md5hex : List Nat → String)
    (fsRead : String → List Nat) (remotes : List RemoteObj) (rels : List String)
    (plan : Plan) (hnd : rels.Nodup)
    (hok : reconcile md5hex remotes rels fsRead = .ok plan) :
    (∀ k, k ∈ mapKeys (s3MapOf remotes) →
        (k ∈ plan.uploaded ∧ k ∉ plan.skipped ∧ k ∉ plan.toDelete)
        ∨ (k ∉ plan.uploaded ∧ k ∈ plan.skipped ∧ k ∉ plan.toDelete)
        ∨ (k ∉ plan.uploaded ∧ k ∉ plan.skipped ∧ k ∈ plan.toDelete))
    ∧ (∀ x ∈ rels,
        ((x ∈ plan.uploaded ∧ x ∉ plan.skipped)
          ∨ (x ∉ plan.uploaded ∧ x ∈ plan.skipped))
        ∧ x ∉ plan.toDelete) := by
  by_cases hfail : (processFiles md5hex remotes rels fsRead).failed = []
  case neg => simp [reconcile, hfail] at hok
  have hplan : plan = ⟨(processFiles md5hex remotes rels fsRead).skipped,
      (processFiles md5hex remotes rels fsRead).uploaded,
      mapKeys (processFiles md5hex remotes rels fsRead).m⟩ := by
    simp [reconcile, hfail] at hok
    exact hok.symm
  subst hplan
  have hnothrow := nothrow_of_failed_nil md5hex fsRead remotes rels hnd hfail
  have hmemU : ∀ k, k ∈ (processFiles md5hex remotes rels fsRead).uploaded
      ↔ k ∈ rels
        ∧ decideFile md5hex fsRead (s3MapOf remotes) k = Decision.dupload := by
    intro k
    rw [processFiles_uploaded _ _ _ _ hnd]
    constructor
    · intro h
      obtain ⟨h1, h2⟩ := List.mem_filter.mp h
      exact ⟨h1, by simpa using h2⟩
    · intro h
      exact List.mem_filter.mpr ⟨h.1, by simp [h.2]⟩
  have hmemS : ∀ k, k ∈ (processFiles md5hex remotes rels fsRead).skipped
      ↔ k ∈ rels
        ∧ decideFile md5hex fsRead (s3MapOf remotes) k = Decision.dskip := by
    intro k
    rw [processFiles_skipped _ _ _ _ hnd]
    constructor
    · intro h
      obtain ⟨h1, h2⟩ := List.mem_filter.mp h
      exact ⟨h1, by simpa using h2⟩
    · intro h
      exact List.mem_filter.mpr ⟨h.1, by simp [h.2]⟩
  have hmemD : ∀ k, k ∈ mapKeys (processFiles md5hex remotes rels fsRead).m
      ↔ ¬ (mapGet (processFiles md5hex remotes rels fsRead).m k = none) := by
    intro k
    rw [mapGet_none_iff]
    exact (not_not).symm
  have hlocal : ∀ x ∈ rels,
      ((x ∈ (processFiles md5hex remotes rels fsRead).uploaded
          ∧ x ∉ (processFiles md5hex remotes rels fsRead).skipped)
        ∨ (x ∉ (processFiles md5hex remotes rels fsRead).uploaded
          ∧ x ∈ (processFiles md5hex remotes rels fsRead).skipped))
      ∧ x ∉ mapKeys (processFiles md5hex remotes rels fsRead).m := by
    intro x hx
    have hnt := hnothrow x hx
    have hnone : mapGet (processFiles md5hex remotes rels fsRead).m x = none := by
      rw [processFiles_m_get _ _ _ _ hnd]
      simp [hx, hnt]
    refine ⟨?_, (mapGet_none_iff _ _).mp hnone⟩
    cases hd : decideFile md5hex fsRead (s3MapOf remotes) x with
    | dskip =>
      right
      refine ⟨?_, (hmemS x).mpr ⟨hx, hd⟩⟩
      intro hu
      have := ((hmemU x).mp hu).2
      rw [hd] at this
      exact absurd this (by simp)
    | dupload =>
      left
      refine ⟨(hmemU x).mpr ⟨hx, hd⟩, ?_⟩
      intro hs
      have := ((hmemS x).mp hs).2
      rw [hd] at this
      exact absurd this (by simp)
    | dthrow => exact absurd hd hnt
  refine ⟨?_, hlocal⟩
  intro k hk
  by_cases hkr : k ∈ rels
  · rcases (hlocal k hkr).1 with ⟨h1, h2⟩ | ⟨h1, h2⟩
    · exact Or.inl ⟨h1, h2, (hlocal k hkr).2⟩
    · exact Or.inr (Or.inl ⟨h1, h2, (hlocal k hkr).2⟩)
  · refine Or.inr (Or.inr ⟨?_, ?_, ?_⟩)
    · intro hu
      exact hkr ((hmemU k).mp hu).1
    · intro hs
      exact hkr ((hmemS k).mp hs).1
    · apply (hmemD k).mpr
      rw [processFiles_m_get _ _ _ _ hnd]
      simp only [hkr, false_and, if_false]
      intro hnone
      exact (mapGet_none_iff _ _).mp hnone hk

/-- C4 (amended) witness: in the counterexample run the remote and local
key `a.html` lands in `toUpload` alone, and is not deleted. -/
theorem c4_amended_witness :
    List.Nodup ["a.html"]
    ∧ reconcile md5A [⟨"a.html", some (quoteStr hashB)⟩] ["a.html"] readZ
        = .ok ⟨[], ["a.html"], []⟩
    ∧ ((("a.html" ∈ (Plan.mk [] ["a.html"] []).uploaded
          ∧ "a.html" ∉ (Plan.mk [] ["a.html"] []).skipped)
        ∨ ("a.html" ∉ (Plan.mk [] ["a.html"] []).uploaded
          ∧ "a.html" ∈ (Plan.mk [] ["a.html"] []).skipped))
        ∧ "a.html" ∉ (Plan.mk [] ["a.html"] []).toDelete) :=
  ⟨by decide, by decide,
    (c4_amended_partition md5A readZ [⟨"a.html", some (quoteStr hashB)⟩]
        ["a.html"] ⟨[], ["a.html"], []⟩ (by decide) (by decide)).2
      "a.html" (by decide)⟩

/-! The remote store after a successful run, for the idempotence claim. -/

/-- The remote record an unchanged rerun sees for relative path `x` after
a successful run: a skipped key keeps its listing record, an uploaded key
carries an etag that is the quoted md5 of the uploaded bytes (the store
reflects each successful put that way), and no other record exists. -/
def storeAfterEntry (md5hex : List Nat → String) (remotes : List RemoteObj)
    (fsRead : String → List Nat) (x : String) : Option RemoteObj :=
  match decideFile md5hex fsRead (s3MapOf remotes) x with
  | .dskip => mapGet (s3MapOf remotes) x
  | .dupload => some ⟨x, some (quoteStr (md5hex (fsRead (distDir ++ x))))⟩
  | .dthrow => none

/-- The full remote listing an unchanged rerun sees: one record per local
relative path, every unclaimed remote object having been deleted. -/
def storeAfter (md5hex : List Nat → String) (remotes : List RemoteObj)
    (rels : List String) (fsRead : String → List Nat) : List RemoteObj :=
  rels.filterMap (storeAfterEntry md5hex remotes fsRead)

theorem storeAfterEntry_keyed (md5hex : List Nat → String)
    (remotes : List RemoteObj) (fsRead : String → List Nat) :
    ∀ y o, storeAfterEntry md5hex remotes fsRead y = some o → o.Key = y := by
  intro y o h
  cases hd : decideFile md5hex fsRead (s3MapOf remotes) y <;>
    simp [storeAfterEntry, hd] at h
  · exact (s3MapOf_get_key h).1
  · rw [← h]

theorem find?_keyed_none (f : String → Option RemoteObj)
    (hf : ∀ y o, f y = some o → o.Key = y) (t : List String) (x : String)
    (hx : x ∉ t) :
    (t.filterMap f).reverse.find? (fun o => o.Key == x) = none := by
  apply List.find?_eq_none.mpr
  intro o ho
  have ho2 : o ∈ t.filterMap f := by simpa using ho
  obtain ⟨z, hz, hfz⟩ := List.mem_filterMap.mp ho2
  have hkey := hf z o hfz
  simp [hkey]
  exact fun h => hx (h ▸ hz)

theorem lastWins_keyed (f : String → Option RemoteObj)
    (hf : ∀ y o, f y = some o → o.Key = y) :
    ∀ (rels : List String), rels.Nodup → ∀ x ∈ rels,
      lastWins (rels.filterMap f) x = f x := by
  intro rels
  induction rels with
  | nil => simp
  | cons y t ih =>
    intro hnd x hx
    have hyt : y ∉ t := (List.nodup_cons.mp hnd).1
    have hndt := (List.nodup_cons.mp hnd).2
    rw [List.filterMap_cons]
    cases hfy : f y with
    | none =>
      rcases List.mem_cons.mp hx with rfl | hxt
      · rw [hfy, lastWins]
        exact find?_keyed_none f hf t x hyt
      · exact ih hndt x hxt
    | some o =>
      rcases List.mem_cons.mp hx with rfl | hxt
      · rw [lastWins, List.reverse_cons, List.find?_append,
          find?_keyed_none f hf t x hyt]
        have hko : (o.Key == x) = true := by simp [hf _ o hfy]
        simp [Option.orElse, List.find?, hko, hfy]
      · have hih := ih hndt x hxt
        rw [lastWins] at hih ⊢
        rw [List.reverse_cons, List.find?_append, hih]
        cases hfx : f x with
        | some o2 => simp [Option.orElse]
        | none =>
          have hko : (o.Key == x) = false :=
            beq_eq_false_iff_ne.mpr
              (by rw [hf y o hfy]; exact fun h => hyt (h ▸ hxt))
          simp [Option.orElse, List.find?, hko]

theorem storeAfter_get (md5hex : List Nat → String) (remotes : List RemoteObj)
    (rels : List String) (fsRead : String → List Nat) (hnd : rels.Nodup)
    (x : String) (hx : x ∈ rels) :
    mapGet (s3MapOf (storeAfter md5hex remotes rels fsRead)) x
      = storeAfterEntry md5hex remotes fsRead x := by
  rw [s3MapOf_get, storeAfter]
  exact lastWins_keyed _ (storeAfterEntry_keyed md5hex remotes fsRead) rels hnd x hx

theorem storeAfter_get_none (md5hex : List Nat → String) (remotes : List RemoteObj)
    (rels : List String) (fsRead : String → List Nat)
    (k : String) (hk : k ∉ rels) :
    mapGet (s3MapOf (storeAfter md5hex remotes rels fsRead)) k = none := by
  rw [s3MapOf_get, storeAfter, lastWins]
  exact find?_keyed_none _ (storeAfterEntry_keyed md5hex remotes fsRead) rels k hk

/-- C3: rerunning the reconciliation with no local change, against the
remote store left by a successful run (each put recorded as the quoted
md5 of the uploaded bytes), produces zero uploads and zero deletes: every
local file is skipped and the remote map is fully claimed. -/
theorem c3_idempotent (md5hex : List Nat → String) (fsRead : String → List Nat)
    (remotes : List RemoteObj) (rels : List String) (plan1 : Plan)
    (hmd5 : ∀ b, isHexDigest (md5hex b) = true)
    (hnd : rels.Nodup)
    (hok : reconcile md5hex remotes rels fsRead = .ok plan1) :
    reconcile md5hex (storeAfter md5hex remotes rels fsRead) rels fsRead
      = .ok ⟨rels, [], []⟩ := by
  have hfail1 : (processFiles md5hex remotes rels fsRead).failed = [] := by
    by_contra hf
    simp [reconcile, hf] at hok
  have hnothrow := nothrow_of_failed_nil md5hex fsRead remotes rels hnd hfail1
  have hd2 : ∀ x ∈ rels,
      decideFile md5hex fsRead (s3MapOf (storeAfter md5hex remotes rels fsRead)) x
        = Decision.dskip := by
    intro x hx
    apply (decideFile_eq_dskip_iff _ _ _ _).mpr
    cases hd : decideFile md5hex fsRead (s3MapOf remotes) x with
    | dthrow => exact absurd hd (hnothrow x hx)
    | dskip =>
      obtain ⟨r, hr, e, he, hp⟩ := (decideFile_eq_dskip_iff _ _ _ _).mp hd
      refine ⟨r, ?_, e, he, hp⟩
      rw [storeAfter_get md5hex remotes rels fsRead hnd x hx]
      simp [storeAfterEntry, hd, hr]
    | dupload =>
      refine ⟨⟨x, some (quoteStr (md5hex (fsRead (distDir ++ x))))⟩, ?_, _, rfl,
        jsonParseEtag_quote _ (hmd5 _)⟩
      rw [storeAfter_get md5hex remotes rels fsRead hnd x hx]
      simp [storeAfterEntry, hd]
  have hskip2 : (processFiles md5hex (storeAfter md5hex remotes rels fsRead)
      rels fsRead).skipped = rels := by
    rw [processFiles_skipped _ _ _ _ hnd]
    apply List.filter_eq_self.mpr
    intro x hx
    simp [hd2 x hx]
  have hup2 : (processFiles md5hex (storeAfter md5hex remotes rels fsRead)
      rels fsRead).uploaded = [] := by
    rw [processFiles_uploaded _ _ _ _ hnd]
    apply List.filter_eq_nil_iff.mpr
    intro x hx
    simp [hd2 x hx]
  have hfail2 : (processFiles md5hex (storeAfter md5hex remotes rels fsRead)
      rels fsRead).failed = [] := by
    rw [processFiles_failed _ _ _ _ hnd]
    apply List.filter_eq_nil_iff.mpr
    intro x hx
    simp [hd2 x hx]
  have hm2 : (processFiles md5hex (storeAfter md5hex remotes rels fsRead)
      rels fsRead).m = [] := by
    apply eq_nil_of_mapGet_none
    intro k
    rw [processFiles_m_get _ _ _ _ hnd]
    by_cases hk : k ∈ rels
    · simp [hk, hd2 k hk]
    · simp only [hk, false_and, if_false]
      exact storeAfter_get_none md5hex remotes rels fsRead k hk
  simp [reconcile, hfail2, hskip2, hup2, hm2, mapKeys]

/-- C3 witness: a concrete first run uploading `index.html` into an empty
bucket; the rerun against the resulting store skips it and deletes
nothing. -/
theorem c3_witness :
    isHexDigest (md5A []) = true
    ∧ List.Nodup ["index.html"]
    ∧ reconcile md5A [] ["index.html"] readZ = .ok ⟨[], ["index.html"], []⟩
    ∧ reconcile md5A (storeAfter md5A [] ["index.html"] readZ)
        ["index.html"] readZ = .ok ⟨["index.html"], [], []⟩ :=
  ⟨by decide, by decide, by decide,
    c3_idempotent md5A readZ [] ["index.html"] ⟨[], ["index.html"], []⟩
      (fun _ => (by decide : isHexDigest hashA = true)) (by decide) (by decide)⟩

/-! Temporal structure of the trace. -/

theorem events_all_decisions (md5hex : List Nat → String)
    (fsRead : String → List Nat) :
    ∀ (l : List String) (st : FoldSt),
      (∀ ev ∈ st.events, isDecisionEvent ev = true) →
      ∀ ev ∈ (l.foldl (step md5hex fsRead) st).events,
        isDecisionEvent ev = true := by
  intro l
  induction l with
  | nil => intro st h; exact h
  | cons x t ih =>
    intro st h
    apply ih
    intro ev hev
    rw [step_events] at hev
    rcases List.mem_append.mp hev with h1 | h2
    · exact h ev h1
    · cases hd : decideFile md5hex fsRead st.m x <;> simp [hd, evFor] at h2
      · rw [h2]; rfl
      · rcases h2 with h2 | h2 <;> rw [h2] <;> rfl

theorem removals_not_decisions (L : List String) (n : Nat) :
    isDecisionEvent ((L.map Event.removingE).getD n (Event.removingE "")) = false := by
  rw [List.getD_eq_getElem?_getD]
  cases hL : (L.map Event.removingE)[n]? with
  | none => rfl
  | some ev =>
    have hm := List.getElem?_mem hL
    obtain ⟨k, _, hk⟩ := List.mem_map.mp hm
    simp [← hk, isDecisionEvent]

/-- C8: in every run's trace, a `Removing` event never precedes a
decision event: delete operations start only after every per-file
upload/skip decision (deploy.js computes the delete set from `s3Map` only
after the `Promise.all` over all local files resolves). -/
theorem c8_deletes_after_decisions (md5hex : List Nat → String)
    (fsRead : String → List Nat) (remotes : List RemoteObj) (rels : List String)
    (i j : Nat)
    (hi : isDecisionEvent ((runTrace md5hex remotes rels fsRead).getD i
            (Event.removingE "")) = true)
    (hj : isDecisionEvent ((runTrace md5hex remotes rels fsRead).getD j
            (Event.removingE "")) = false) :
    i < j := by
  have hev : ∀ ev ∈ (processFiles md5hex remotes rels fsRead).events,
      isDecisionEvent ev = true :=
    events_all_decisions md5hex fsRead rels (initSt remotes) (by simp [initSt])
  have hBfalse : ∀ n, isDecisionEvent
      (((if (processFiles md5hex remotes rels fsRead).failed = []
          then (mapKeys (processFiles md5hex remotes rels fsRead).m).map
                 Event.removingE
          else []) : List Event).getD n (Event.removingE "")) = false := by
    intro n
    by_cases hf : (processFiles md5hex remotes rels fsRead).failed = []
    · simp only [hf, if_true]
      exact removals_not_decisions _ n
    · simp only [hf, if_false]
      rfl
  have hilt : i < (processFiles md5hex remotes rels fsRead).events.length := by
    by_contra hge
    push_neg at hge
    rw [runTrace_eq, List.getD_eq_getElem?_getD, List.getElem?_append_right hge,
      ← List.getD_eq_getElem?_getD] at hi
    rw [hBfalse] at hi
    exact absurd hi (by simp)
  have hjge : ¬ j < (processFiles md5hex remotes rels fsRead).events.length := by
    intro hjlt
    rw [runTrace_eq, List.getD_eq_getElem?_getD, List.getElem?_append_left hjlt,
      List.getElem?_eq_getElem hjlt] at hj
    have := hev _ (List.getElem_mem hjlt)
    simp only [Option.getD_some] at hj
    rw [hj] at this
    exact absurd this (by simp)
  omega

/-- C8 witness: a concrete trace — upload decision events for `a.html` at
indexes 0 and 1, the removal of the unclaimed `z.png` at index 2. -/
theorem c8_witness :
    isDecisionEvent ((runTrace md5A [⟨"z.png", some "\"bb\""⟩] ["a.html"] readZ).getD
        0 (Event.removingE "")) = true
    ∧ isDecisionEvent ((runTrace md5A [⟨"z.png", some "\"bb\""⟩] ["a.html"] readZ).getD
        2 (Event.removingE "")) = false
    ∧ 0 < 2 :=
  ⟨by decide, by decide,
    c8_deletes_after_decisions md5A readZ [⟨"z.png", some "\"bb\""⟩] ["a.html"]
      0 2 (by decide) (by decide)⟩

/-! The paginated bucket listing `iterS3` (deploy.js lines 45-70). -/

/-- One page of an S3 `listObjects` response: its `Contents` and the
`IsTruncated` flag. -/
structure Page where
  contents : List RemoteObj
  isTruncated : Bool
deriving DecidableEq, Repr

/-- The response the S3 client hands a page request's callback: an error
(`err` truthy, carrying an error code), a null `data`, or a page. -/
inductive PageResp
  | errResp (e : Nat)
  | nullResp
  | okResp (p : Page)
deriving DecidableEq, Repr

/-- Observable outcome of `iterS3`'s promise: resolved with the flat
object list, rejected with the callback's `err` value (`none` models the
undefined `err` passed to `reject` on a null page), or never settled
(the callback threw computing the next marker from an empty truncated
page, or no response ever arrived). -/
inductive ListOutcome
  | resolved (objs : List RemoteObj)
  | rejected (e : Option Nat)
  | unsettled
deriving DecidableEq, Repr

/-- `iterS3` (deploy.js lines 45-70) over the trace of page responses the
client will deliver: reject on an erroring or null page; accumulate the
page's contents; when `IsTruncated`, take the last object's key as the
next marker (a `TypeError` on an empty page: the promise never settles)
and request the next page; otherwise resolve with the accumulator. -/
def iterS3 : List PageResp → ListOutcome
  | [] => .unsettled
  | .errResp e :: _ => .rejected (some e)
  | .nullResp :: _ => .rejected none
  | .okResp p :: rest =>
    if p.isTruncated then
      match p.contents.getLast? with
      | none => .unsettled
      | some _ =>
        match iterS3 rest with
        | .resolved l => .resolved (p.contents ++ l)
        | o => o
    else .resolved p.contents

/-- A page response that lets the pagination continue: a non-erroring,
non-null, truncated page with at least one object to take the marker
from. -/
def goodTruncPage : PageResp → Bool
  | .okResp p => p.isTruncated && !p.contents.isEmpty
  | _ => false

/-- The rejection value a bad page response produces: the error for an
erroring request, `none` (undefined) for a null page. -/
def badErrOf : PageResp → Option (Option Nat)
  | .errResp e => some (some e)
  | .nullResp => some none
  | .okResp _ => none

/-- C6: the listing rejects — carrying the triggering `err` value —
whenever any requested page errors or comes back null (any run whose
pages so far all allowed pagination to continue and whose next response
is bad); and on an empty bucket, a single non-truncated empty page, it
resolves to the empty sequence without consuming any further response. -/
theorem c6_iterS3_errors_and_empty (pre rest : List PageResp) (bad : PageResp)
    (e : Option Nat)
    (hpre : ∀ q ∈ pre, goodTruncPage q = true)
    (hbad : badErrOf bad = some e) :
    iterS3 (pre ++ bad :: rest) = .rejected e
    ∧ ∀ after : List PageResp,
        iterS3 (PageResp.okResp ⟨[], false⟩ :: after) = .resolved [] := by
  constructor
  · induction pre with
    | nil =>
      cases bad <;> simp [badErrOf] at hbad <;> simp [iterS3, ← hbad]
    | cons q t ih =>
      have hq := hpre q (by simp)
      cases q with
      | errResp e2 => simp [goodTruncPage] at hq
      | nullResp => simp [goodTruncPage] at hq
      | okResp p =>
        simp only [goodTruncPage, Bool.and_eq_true] at hq
        obtain ⟨htr, hne⟩ := hq
        have hlast : p.contents.getLast? ≠ none := by
          intro hn
          rw [List.getLast?_eq_none_iff] at hn
          rw [hn] at hne
          simp at hne
        have hih := ih (fun q2 hq2 => hpre q2 (by simp [hq2]))
        rw [List.cons_append]
        rw [iterS3]
        rw [if_pos htr]
        cases hl : p.contents.getLast? with
        | none => exact absurd hl hlast
        | some a => rw [hih]
  · intro after
    rw [iterS3]
    simp

/-- C6 witness: a concrete listing whose first page is good and truncated
and whose second page request comes back null: the promise rejects with
the undefined `err`. -/
theorem c6_witness :
    (∀ q ∈ [PageResp.okResp ⟨[⟨"k", none⟩], true⟩], goodTruncPage q = true)
    ∧ badErrOf PageResp.nullResp = some none
    ∧ iterS3 [PageResp.okResp ⟨[⟨"k", none⟩], true⟩, PageResp.nullResp]
        = .rejected none
    ∧ iterS3 [PageResp.okResp ⟨[], false⟩] = .resolved [] :=
  ⟨by decide, by decide,
    (c6_iterS3_errors_and_empty [PageResp.okResp ⟨[⟨"k", none⟩], true⟩] []
      PageResp.nullResp none (by decide) (by decide)).1,
    (c6_iterS3_errors_and_empty [PageResp.okResp ⟨[⟨"k", none⟩], true⟩] []
      PageResp.nullResp none (by decide) (by decide)).2 []⟩

/-! The recursive directory walk `iterFS` (deploy.js lines 110-122). -/

/-- A directory entry: a file, or a directory with its child entries. -/
inductive FSTree where
  | file (name : String)
  | dir (name : String) (children : List FSTree)
deriving Repr

/-- `path.join(dirname, filename)` for plain names: a single separator is
inserted unless `dirname` already ends with one. -/
def pjoin (d f : String) : String :=
  if d.endsWith "/" then d ++ f else d ++ "/" ++ f

/-- `var ignore = []` (deploy.js line 16): the files to ignore. -/
def ignore : List String := []

/-- The membership test `fullpath in ignore` (deploy.js line 114).  The
JS `in` operator on an array tests property keys — the index strings
`"0" … "n-1"` and `"length"` — not element values.  (Inherited
`Array.prototype` method names also answer `in`; no walked path collides
with them, and they are left out of the model.) -/
def jsInArray (p : String) (arr : List String) : Bool :=
  p == "length" || (List.range arr.length).any (fun i => p == toString i)

mutual

/-- One entry's walk step (deploy.js lines 111-118): join the name onto
the directory, log the path when the ignore test answers true, then — in
every case — recurse into a directory or emit a file.  Returns the log
lines and the emitted file paths. -/
def walkEntry (ign : List String) (dirname : String) :
    FSTree → List String × List String
  | .file n =>
    ((if jsInArray (pjoin dirname n) ign then [pjoin dirname n] else []),
      [pjoin dirname n])
  | .dir n ch =>
    ((if jsInArray (pjoin dirname n) ign then [pjoin dirname n] else [])
        ++ (walkList ign (pjoin dirname n) ch).1,
      (walkList ign (pjoin dirname n) ch).2)

/-- The walk over a directory listing, results concatenated in order
(the `.map` + `.reduce(concat)` of deploy.js lines 111-121). -/
def walkList (ign : List String) (dirname : String) :
    List FSTree → List String × List String
  | [] => ([], [])
  | t :: ts =>
    ((walkEntry ign dirname t).1 ++ (walkList ign dirname ts).1,
      (walkEntry ign dirname t).2 ++ (walkList ign dirname ts).2)

end

/-- `iterFS(dirname)` over the directory's entries: the walk's log lines
and its flat list of file paths. -/
def iterFS (ign : List String) (dirname : String) (entries : List FSTree) :
    List String × List String :=
  walkList ign dirname entries

mutual

/-- Every full path the walk encounters under one entry (files and
directories alike). -/
def entryPaths (dirname : String) : FSTree → List String
  | .file n => [pjoin dirname n]
  | .dir n ch => pjoin dirname n :: listPaths (pjoin dirname n) ch

def listPaths (dirname : String) : List FSTree → List String
  | [] => []
  | t :: ts => entryPaths dirname t ++ listPaths dirname ts

end

mutual

/-- Every file's full path under one entry, with no ignore handling. -/
def entryFiles (dirname : String) : FSTree → List String
  | .file n => [pjoin dirname n]
  | .dir n ch => listFiles (pjoin dirname n) ch

def listFiles (dirname : String) : List FSTree → List String
  | [] => []
  | t :: ts => entryFiles dirname t ++ listFiles dirname ts

end

mutual

theorem walkEntry_char (ign : List String) (dirname : String) :
    ∀ t : FSTree,
      (walkEntry ign dirname t).1
          = (entryPaths dirname t).filter (fun p => jsInArray p ign)
      ∧ (walkEntry ign dirname t).2 = entryFiles dirname t
  | .file n => by
    by_cases h : jsInArray (pjoin dirname n) ign <;>
      simp [walkEntry, entryPaths, entryFiles, List.filter_cons, h]
  | .dir n ch => by
    have hch := walkList_char ign (pjoin dirname n) ch
    by_cases h : jsInArray (pjoin dirname n) ign <;>
      simp [walkEntry, entryPaths, entryFiles, List.filter_cons, h,
        hch.1, hch.2]

theorem walkList_char (ign : List String) (dirname : String) :
    ∀ ts : List FSTree,
      (walkList ign dirname ts).1
          = (listPaths dirname ts).filter (fun p => jsInArray p ign)
      ∧ (walkList ign dirname ts).2 = listFiles dirname ts
  | [] => by simp [walkList, listPaths, listFiles]
  | t :: ts => by
    have ht := walkEntry_char ign dirname t
    have hts := walkList_char ign dirname ts
    simp [walkList, listPaths, listFiles, List.filter_append,
      ht.1, ht.2, hts.1, hts.2]

end

/-- C7: the walker's log lines are exactly the encountered full paths on
which the code's ignore test (`fullpath in ignore`, an array-key test)
answers true, and the emitted files are exactly all files of the tree —
for every ignore array, so matched entries are still traversed and
emitted and the output is unaffected by ignore membership. -/
theorem c7_ignored_logged_still_emitted (ign : List String) (dirname : String)
    (entries : List FSTree) :
    (iterFS ign dirname entries).1
        = (listPaths dirname entries).filter (fun p => jsInArray p ign)
    ∧ (iterFS ign dirname entries).2 = listFiles dirname entries :=
  walkList_char ign dirname entries

/-! The ContentTyper `contentType` and its Node `path` helpers
(deploy.js lines 19-42). -/

/-- The characters after the trailing run of separators. -/
def dropTrailingSlashes (cs : List Char) : List Char :=
  (cs.reverse.dropWhile (fun c => c == '/')).reverse

/-- The characters after the last separator. -/
def afterLastSlash (cs : List Char) : List Char :=
  (cs.reverse.takeWhile (fun c => !(c == '/'))).reverse

/-- The last nonempty path segment, trailing separators ignored — the
part of the input Node's `path.extname`/`path.basename` inspect. -/
def lastSegChars (s : String) : List Char :=
  afterLastSlash (dropTrailingSlashes s.data)

/-- Node's `path.extname` restricted to one segment: the substring from
the last dot on, or empty when there is no dot, the only dot leads the
segment, or the segment is exactly `..`.  The index of the last dot is
the segment length minus the run of non-dots at its end, minus one. -/
def extOfSeg (seg : List Char) : String :=
  if (seg.reverse.takeWhile (fun c => !(c == '.'))).length = seg.length then ""
  else if seg.length - (seg.reverse.takeWhile (fun c => !(c == '.'))).length - 1 = 0
    then ""
  else if seg = ['.', '.'] then ""
  else String.mk
    (seg.drop (seg.length - (seg.reverse.takeWhile (fun c => !(c == '.'))).length - 1))

/-- Model of Node `path.extname` (posix). -/
def extname (s : String) : String := extOfSeg (lastSegChars s)

/-- Model of Node `path.basename(p, ext)` (posix): the last segment, with
the `ext` suffix removed when the segment ends with it and is not `ext`
itself. -/
def basename (s ext : String) : String :=
  if lastSegChars s ≠ ext.data ∧ ext.data.length ≤ (lastSegChars s).length
      ∧ (lastSegChars s).drop ((lastSegChars s).length - ext.data.length) = ext.data
  then String.mk ((lastSegChars s).take ((lastSegChars s).length - ext.data.length))
  else String.mk (lastSegChars s)

/-- The `switch` of deploy.js lines 23-41 over an extension. -/
def mimeSwitch : String → String
  | "" => "text/html"
  | ".htm" => "text/html"
  | ".html" => "text/html"
  | ".png" => "image/png"
  | ".jpg" => "image/jpeg"
  | ".jpeg" => "image/jpeg"
  | ".js" => "text/javascript"
  | ".css" => "text/css"
  | ".svg" => "image/svg+xml"
  | _ => "application/octet-stream"

/-- `contentType` (deploy.js lines 19-42): when the extension is `.gz`
the name is first replaced by `path.basename(name, '.gz')`, then the
switch maps the (new) extension to a MIME type. -/
def contentType (name : String) : String :=
  mimeSwitch (extname (if extname name = ".gz" then basename name (extname name)
    else name))

/-- The spec's fixed extension table (§4.1), written from the spec's
words: empty extension and `.htm`/`.html` map to `text/html`, `.png` to
`image/png`, `.jpg`/`.jpeg` to `image/jpeg`, `.js` to `text/javascript`,
`.css` to `text/css`, `.svg` to `image/svg+xml`, anything else to
`application/octet-stream`. -/
def extTableSpec (e : String) : String :=
  if e = "" ∨ e = ".htm" ∨ e = ".html" then "text/html"
  else if e = ".png" then "image/png"
  else if e = ".jpg" ∨ e = ".jpeg" then "image/jpeg"
  else if e = ".js" then "text/javascript"
  else if e = ".css" then "text/css"
  else if e = ".svg" then "image/svg+xml"
  else "application/octet-stream"

/-- Stripping the compression suffix as the spec words it: the `.gz`
extension sits at the end of the last segment; remove those three
characters in place, keeping the rest of the name. -/
def stripGzSpec (s : String) : String :=
  String.mk ((dropTrailingSlashes s.data).take
      ((dropTrailingSlashes s.data).length - (lastSegChars s).length)
    ++ (lastSegChars s).take ((lastSegChars s).length - 3)
    ++ s.data.drop (dropTrailingSlashes s.data).length)

/-- The ContentTyper as the spec words it (C9): when the name's extension
is the compression suffix `.gz` that suffix is stripped first, and the
result is determined by the fixed table on the extension. -/
def contentTypeSpec (name : String) : String :=
  extTableSpec (extname (if extname name = ".gz" then stripGzSpec name else name))

theorem mimeSwitch_eq_table (e : String) : mimeSwitch e = extTableSpec e := by
  unfold mimeSwitch extTableSpec
  split <;> simp_all

theorem dropWhile_append_all {p : Char → Bool} (a b : List Char)
    (hb : ∀ c ∈ b, p c = true) : (b ++ a).dropWhile p = a.dropWhile p := by
  induction b with
  | nil => rfl
  | cons c t ih =>
    rw [List.cons_append, List.dropWhile_cons]
    simp only [hb c (by simp), if_true]
    exact ih (fun c2 hc2 => hb c2 (by simp [hc2]))

theorem dropWhile_eq_self_of_head (p : Char → Bool) (c : Char) (t : List Char)
    (hc : p c = false) : (c :: t).dropWhile p = c :: t := by
  rw [List.dropWhile_cons]
  simp [hc]

theorem takeWhile_append_all {p : Char → Bool} (a b : List Char)
    (ha : ∀ c ∈ a, p c = true) : (a ++ b).takeWhile p = a ++ b.takeWhile p := by
  induction a with
  | nil => rfl
  | cons c t ih =>
    rw [List.cons_append, List.takeWhile_cons]
    simp only [ha c (by simp), if_true]
    rw [ih (fun c2 hc2 => ha c2 (by simp [hc2]))]
    rfl

theorem takeWhile_eq_nil_of_head {p : Char → Bool} (c : Char) (t : List Char)
    (hc : p c = false) : (c :: t).takeWhile p = [] := by
  rw [List.takeWhile_cons]
  simp [hc]

theorem afterLastSlash_no_slash (cs : List Char) :
    ∀ c ∈ afterLastSlash cs, ¬ c = '/' := by
  intro c hc
  rw [afterLastSlash, List.mem_reverse] at hc
  have := List.mem_takeWhile_imp hc
  simpa using this

/-- The decomposition `lastSegChars` induces: any string whose characters
are a prefix ending in a separator (or empty), then a nonempty
separator-free segment, then a run of separators, has that segment as its
last segment. -/
theorem lastSegChars_concat (pre seg2 trail : List Char)
    (hseg : seg2 ≠ []) (hslash : ∀ c ∈ seg2, ¬ c = '/')
    (htrail : ∀ c ∈ trail, c = '/')
    (hpre : pre = [] ∨ pre.getLast? = some '/') :
    lastSegChars (String.mk (pre ++ seg2 ++ trail)) = seg2 := by
  have hdata : (String.mk (pre ++ seg2 ++ trail)).data = pre ++ seg2 ++ trail := rfl
  rw [lastSegChars, hdata]
  obtain ⟨c, t2, hct⟩ : ∃ c t2, seg2.reverse = c :: t2 := by
    cases hrev : seg2.reverse with
    | nil => exact absurd (by simpa using hrev) hseg
    | cons c t2 => exact ⟨c, t2, rfl⟩
  have hcmem : c ∈ seg2 := by
    rw [← List.mem_reverse, hct]
    simp
  have hdts : dropTrailingSlashes (pre ++ seg2 ++ trail) = pre ++ seg2 := by
    rw [dropTrailingSlashes, List.reverse_append, List.reverse_append]
    rw [dropWhile_append_all _ _ (fun c2 hc2 => by
      simp [htrail c2 (List.mem_reverse.mp hc2)])]
    have hsplit : seg2.reverse ++ pre.reverse = c :: (t2 ++ pre.reverse) := by
      rw [hct, List.cons_append]
    have hfalse : (fun c2 => c2 == '/') c = false :=
      beq_eq_false_iff_ne.mpr (hslash c hcmem)
    rw [hsplit, dropWhile_eq_self_of_head (fun c2 => c2 == '/') c
      (t2 ++ pre.reverse) hfalse, ← hsplit,
      ← List.reverse_append, List.reverse_reverse]
  rw [hdts, afterLastSlash, List.reverse_append]
  rw [takeWhile_append_all _ _ (fun c2 hc2 => by
    simp [hslash c2 (List.mem_reverse.mp hc2)])]
  have hpre2 : (pre.reverse).takeWhile (fun c2 => !(c2 == '/')) = [] := by
    rcases hpre with h | h
    · simp [h]
    · obtain ⟨c3, t3, hct3⟩ : ∃ c3 t3, pre.reverse = c3 :: t3 := by
        cases hrev : pre.reverse with
        | nil =>
          rw [List.reverse_eq_nil_iff] at hrev
          rw [hrev] at h
          simp at h
        | cons c3 t3 => exact ⟨c3, t3, rfl⟩
      have hc3 : c3 = '/' := by
        have h4 : pre.getLast? = some c3 := by
          rw [← List.head?_reverse, hct3]
          rfl
        rw [h4] at h
        exact Option.some.inj h
      rw [hct3]
      exact takeWhile_eq_nil_of_head c3 t3 (by simp [hc3])
  rw [hpre2, List.append_nil, List.reverse_reverse]

theorem dropWhile_head_false {p : Char → Bool} :
    ∀ (l : List Char) (a : Char) (t : List Char),
      l.dropWhile p = a :: t → p a = false := by
  intro l
  induction l with
  | nil => intro a t h; simp at h
  | cons c cs ih =>
    intro a t h
    rw [List.dropWhile_cons] at h
    by_cases hc : p c = true
    · rw [if_pos hc] at h
      exact ih a t h
    · rw [if_neg hc] at h
      injection h with h1 _
      rw [← h1]
      cases hb : p c with
      | false => rfl
      | true => exact absurd hb hc

/-- Every string splits as its trailing-separator-free body followed by a
run of separators. -/
theorem trail_decomp (cs : List Char) :
    cs = dropTrailingSlashes cs ++ cs.drop (dropTrailingSlashes cs).length
    ∧ ∀ c ∈ cs.drop (dropTrailingSlashes cs).length, c = '/' := by
  have h2 : cs = dropTrailingSlashes cs
      ++ (cs.reverse.takeWhile (fun c => c == '/')).reverse := by
    show cs = (cs.reverse.dropWhile (fun c => c == '/')).reverse ++ _
    rw [← List.reverse_append, List.takeWhile_append_dropWhile, List.reverse_reverse]
  have hdrop2 : cs.drop (dropTrailingSlashes cs).length
      = (cs.reverse.takeWhile (fun c => c == '/')).reverse := by
    have h3 := List.drop_left (dropTrailingSlashes cs)
      ((cs.reverse.takeWhile (fun c => c == '/')).reverse)
    rw [← h2] at h3
    exact h3
  refine ⟨by rw [hdrop2]; exact h2, ?_⟩
  intro c hc
  rw [hdrop2, List.mem_reverse] at hc
  have := List.mem_takeWhile_imp hc
  simpa using this

/-- Every trailing-separator-free string splits as a prefix that is empty
or ends in a separator, followed by its last segment. -/
theorem seg_decomp (l : List Char) :
    l = l.take (l.length - (afterLastSlash l).length) ++ afterLastSlash l
    ∧ (l.take (l.length - (afterLastSlash l).length) = []
        ∨ (l.take (l.length - (afterLastSlash l).length)).getLast? = some '/') := by
  have h2 : l = (l.reverse.dropWhile (fun c => !(c == '/'))).reverse
      ++ afterLastSlash l := by
    show l = _ ++ (l.reverse.takeWhile (fun c => !(c == '/'))).reverse
    rw [← List.reverse_append, List.takeWhile_append_dropWhile, List.reverse_reverse]
  have hlenP : ((l.reverse.dropWhile (fun c => !(c == '/'))).reverse).length
      = l.length - (afterLastSlash l).length := by
    have h3 := congrArg List.length h2
    simp only [List.length_append] at h3
    omega
  have htake : l.take (l.length - (afterLastSlash l).length)
      = (l.reverse.dropWhile (fun c => !(c == '/'))).reverse := by
    have h4 : ((l.reverse.dropWhile (fun c => !(c == '/'))).reverse
          ++ afterLastSlash l).take (l.length - (afterLastSlash l).length)
        = (l.reverse.dropWhile (fun c => !(c == '/'))).reverse :=
      List.take_left' hlenP
    rw [← h2] at h4
    exact h4
  refine ⟨by rw [htake]; exact h2, ?_⟩
  rw [htake]
  cases hdw : l.reverse.dropWhile (fun c => !(c == '/')) with
  | nil => left; simp [hdw]
  | cons a t =>
    right
    have ha := dropWhile_head_false l.reverse a t hdw
    have ha2 : a = '/' := by simpa using ha
    rw [List.reverse_cons, List.getLast?_concat, ha2]

theorem extOfSeg_gz {seg : List Char} (h : extOfSeg seg = ".gz") :
    4 ≤ seg.length ∧ seg.drop (seg.length - 3) = ['.', 'g', 'z'] := by
  unfold extOfSeg at h
  split_ifs at h with h1 h2 h3
  · exact absurd h (by decide)
  · exact absurd h (by decide)
  · exact absurd h (by decide)
  · have hdrop : seg.drop (seg.length
        - (seg.reverse.takeWhile (fun c => !(c == '.'))).length - 1)
        = ['.', 'g', 'z'] := by
      have h5 := congrArg String.data h
      simpa using h5
    have hlen := congrArg List.length hdrop
    simp only [List.length_drop, List.length_cons, List.length_nil] at hlen
    refine ⟨by omega, ?_⟩
    have h6 : seg.length - 3
        = seg.length - (seg.reverse.takeWhile (fun c => !(c == '.'))).length - 1 := by
      omega
    rw [h6]
    exact hdrop

/-- C9: `contentType` is total and agrees everywhere with the spec's
table-driven ContentTyper — strip the `.gz` suffix first when the
extension is `.gz`, then map the extension through the fixed table; in
particular `foo.html.gz` resolves as `foo.html` to `text/html`. -/
theorem c9_contentType_follows_spec :
    (∀ name, contentType name = contentTypeSpec name)
    ∧ contentType "foo.html.gz" = "text/html" := by
  constructor
  · intro name
    by_cases hgz : extname name = ".gz"
    case neg =>
      rw [contentType, contentTypeSpec, if_neg hgz, if_neg hgz, mimeSwitch_eq_table]
    case pos =>
      obtain ⟨hlen4, hdrop⟩ :=
        extOfSeg_gz (show extOfSeg (lastSegChars name) = ".gz" from hgz)
      have hslashseg : ∀ c ∈ lastSegChars name, ¬ c = '/' :=
        afterLastSlash_no_slash (dropTrailingSlashes name.data)
      have hKlen : ((lastSegChars name).take ((lastSegChars name).length - 3)).length
          = (lastSegChars name).length - 3 := by
        rw [List.length_take]
        omega
      have hKne : (lastSegChars name).take ((lastSegChars name).length - 3) ≠ [] := by
        intro hnil
        rw [hnil] at hKlen
        simp at hKlen
        omega
      have hKslash : ∀ c ∈ (lastSegChars name).take ((lastSegChars name).length - 3),
          ¬ c = '/' :=
        fun c hc => hslashseg c (List.mem_of_mem_take hc)
      -- code side: the basename call strips the three suffix characters
      have hgzdata : (".gz" : String).data = ['.', 'g', 'z'] := rfl
      have hlen3 : (['.', 'g', 'z'] : List Char).length = 3 := rfl
      have hbase : basename name (extname name)
          = String.mk ((lastSegChars name).take ((lastSegChars name).length - 3)) := by
        rw [hgz, basename, hgzdata, hlen3]
        rw [if_pos ?_]
        refine ⟨?_, by omega, hdrop⟩
        intro he
        rw [he] at hlen4
        simp at hlen4
      have hlsc1 : lastSegChars (String.mk
          ((lastSegChars name).take ((lastSegChars name).length - 3)))
          = (lastSegChars name).take ((lastSegChars name).length - 3) := by
        have h7 := lastSegChars_concat []
          ((lastSegChars name).take ((lastSegChars name).length - 3)) []
          hKne hKslash (by simp) (Or.inl rfl)
        simpa using h7
      -- spec side: stripping in place leaves the same last segment
      have htr := trail_decomp name.data
      have hsg := seg_decomp (dropTrailingSlashes name.data)
      have hlsc2 : lastSegChars (stripGzSpec name)
          = (lastSegChars name).take ((lastSegChars name).length - 3) := by
        rw [stripGzSpec]
        exact lastSegChars_concat _ _ _ hKne hKslash htr.2 hsg.2
      rw [contentType, contentTypeSpec, if_pos hgz, if_pos hgz, hbase]
      show mimeSwitch (extOfSeg (lastSegChars (String.mk
          ((lastSegChars name).take ((lastSegChars name).length - 3)))))
        = extTableSpec (extOfSeg (lastSegChars (stripGzSpec name)))
      rw [hlsc1, hlsc2, mimeSwitch_eq_table]
  · rfl


example :
    reconcile (fun _ => "0123456789abcdef0123456789abcdef")
      [⟨"a.html", some "\"0123456789abcdef0123456789abcdef\""⟩,
       ⟨"c.css", some "\"ffffffffffffffffffffffffffffffff\""⟩]
      ["a.html", "b.png"] (fun _ => [104, 105]) =
      .ok ⟨["a.html"], ["b.png"], ["c.css"]⟩ := by decide
